import Mathlib

/-!
Verification of the storage and lookup layer of a movie-metadata engine.

The development shallowly embeds the relevant parts of the source:

* `chunkedfile.py` (`ChunkedFile`): a writer that buffers bytes and emits
  fixed-target-size chunks (`WState`, `writeW`, `bookmarkW`, `flushW`,
  `closeW`), a reader with a byte-level read buffer (`RState`, `readPos`,
  `readNeg`, `seekR`) and bookmark lookup (`findBookmark`,
  `findBookmarkRange`).
* `parsers.py`: the bookmark-based seek planner `_find_seeks_bookmarks`
  (`findSeeksBookmarks`) and the shared point-lookup loop `_run_search`
  (`runSearch`), modelled at line granularity for sub-streams whose chunks
  hold whole lines (which is what `rebuild_index` produces for
  bookmark-planned sub-streams, since those are written with
  `autoflush=False` and flushed only at line boundaries).  Also the
  running-time duration parsing of `IMDbRunningTimeParser._make_result`
  (`parseDuration`) and the credit sort of `_IMDbNamesParser.search`
  (`namesSort`).
* `search.py`: the candidate acceptance test of `_search_index`
  (`acceptLine`).

Bytes are modelled as `List Nat`; machine integers do not overflow in the
modelled code (Python integers are unbounded).  An uncaught Python
exception is modelled as `Except.error ()`.
-/

namespace Imdb

/-- Byte strings; Python 2 `str` values are byte sequences. -/
abbrev Bytes := List Nat

/-- Strict lexicographic order on byte strings, as Python 2 compares `str`s. -/
def lexLt : Bytes → Bytes → Bool
  | [], [] => false
  | [], _ :: _ => true
  | _ :: _, [] => false
  | a :: as, b :: bs => if a < b then true else if b < a then false else lexLt as bs

/-- Python truthiness of an optional byte string: `None` and `''` are falsy.
This is the `chunk.bookmark and ...` test in `find_bookmark`. -/
def bmTruthy : Option Bytes → Bool
  | none => false
  | some k => !k.isEmpty

/-- One stored chunk of a sub-stream: its logical start offset (parsed from
the zip member name in `_chunks`), its decompressed payload, and its
optional bookmark. -/
structure Chunk where
  pos : Nat
  data : Bytes
  bm : Option Bytes
deriving Repr, DecidableEq

/-- Concatenated payloads of a list of chunks, i.e. the decompressed
content of the sub-stream they form. -/
def chunksData (cs : List Chunk) : Bytes := (cs.map Chunk.data).flatten

/-- The chunks starting at logical offset `p` are contiguous and non-empty:
each chunk starts where the previous one ended.  This is the invariant the
writer maintains (claim C5) and the well-formedness assumption of the
reader-side theorems. -/
def chainedB : Nat → List Chunk → Bool
  | _, [] => true
  | p, c :: rest => decide (c.pos = p) && !c.data.isEmpty && chainedB (p + c.data.length) rest

/-! ### Writer (`ChunkedFile` opened with `mode='w'` on a fresh sub-stream) -/

/-- Writer-side state of a `ChunkedFile`: preferred chunk size, the
`autoflush` flag, `self.pos` (total bytes written), `self.writebuf`,
`self.chunks` and `self._last_bookmark`. -/
structure WState where
  chunksize : Nat
  autoflush : Bool
  pos : Nat
  writebuf : Bytes
  chunks : List Chunk
  lastBm : Option Bytes
deriving Repr, DecidableEq

/-- State right after `ChunkedFile(filename, subfile, 'w', chunksize,
autoflush)` on a sub-stream that does not exist yet (no chunks found, so
`chunkidx = -1` and `pos = 0`). -/
def freshW (chunksize : Nat) (autoflush : Bool) : WState :=
  ⟨chunksize, autoflush, 0, [], [], none⟩

/-- One iteration of the emission loop in `ChunkedFile._flush`: compute
`chunkpos = self.pos - len(self.writebuf)`, attach the bookmark if it is
truthy and the whole buffer fits in one chunk, store the first `chunksize`
buffered bytes as a new chunk and drop them from the buffer. -/
def emitChunk (bm : Option Bytes) (s : WState) : WState :=
  let chunkpos := s.pos - s.writebuf.length
  let cbm := if bmTruthy bm && decide (s.writebuf.length ≤ s.chunksize) then bm else none
  { s with
    writebuf := s.writebuf.drop s.chunksize
    chunks := s.chunks ++ [⟨chunkpos, s.writebuf.take s.chunksize, cbm⟩] }

/-- The `while` loop of `ChunkedFile._flush`, with explicit fuel.  The loop
runs while the buffer is non-empty and either holds at least a full chunk
or `auto=False`.  For chunk size `≥ 1` a fuel of `writebuf.length` is
enough to reach the loop's own exit condition, so the wrapper `flushW`
passes exactly that. -/
def flushLoop : Nat → Bool → Option Bytes → WState → WState
  | 0, _, _, s => s
  | fuel + 1, auto, bm, s =>
    if !s.writebuf.isEmpty && (decide (s.chunksize ≤ s.writebuf.length) || !auto) then
      flushLoop fuel auto bm (emitChunk bm s)
    else s

/-- `ChunkedFile._flush(auto, bookmark)`: a no-op when `auto=True` and
`autoflush` is off, otherwise the emission loop. -/
def flushW (auto : Bool) (bm : Option Bytes) (s : WState) : WState :=
  if auto && !s.autoflush then s else flushLoop s.writebuf.length auto bm s

/-- `ChunkedFile.write(data)`: append to the write buffer, advance
`self.pos`, then `self._flush(auto=True)`. -/
def writeW (data : Bytes) (s : WState) : WState :=
  flushW true none { s with writebuf := s.writebuf ++ data, pos := s.pos + data.length }

/-- `ChunkedFile.bookmark(key)`: remember the key, and if the buffer holds
at least 7/8 of a chunk (`chunksize - chunksize/8` with floor division),
flush everything now, tagging the boundary with the key.  The
non-decreasing-keys assertion is not modelled: a failing assert raises in
Python before any state change, so every Python-reachable state is
covered by the total model. -/
def bookmarkW (key : Bytes) (s : WState) : WState :=
  let s' : WState := { s with lastBm := some key }
  if s.chunksize - s.chunksize / 8 ≤ s.writebuf.length then flushW false (some key) s' else s'

/-- `ChunkedFile.close()` (the data part): `self.flush()`, which is
`self._flush(auto=False)` and empties the write buffer. -/
def closeW (s : WState) : WState := flushW false none s

/-- Write a list of byte strings through consecutive `write` calls. -/
def writeAll (pieces : List Bytes) (s : WState) : WState :=
  pieces.foldl (fun s p => writeW p s) s

/-- One writer operation of claim C5: a `write`, a `bookmark` or an
explicit `flush`. -/
inductive WOp where
  | wr (data : Bytes)
  | bk (key : Bytes)
  | fl
deriving Repr, DecidableEq

/-- Run one writer operation. -/
def applyOp (s : WState) : WOp → WState
  | .wr d => writeW d s
  | .bk k => bookmarkW k s
  | .fl => flushW false none s

/-- Run a sequence of writer operations. -/
def applyOps (ops : List WOp) (s : WState) : WState := ops.foldl applyOp s

/-- All bytes written by a sequence of writer operations. -/
def opsBytes : List WOp → Bytes
  | [] => []
  | .wr d :: rest => d ++ opsBytes rest
  | .bk _ :: rest => opsBytes rest
  | .fl :: rest => opsBytes rest

/-- The writer invariant: the chunk size is positive, the emitted chunks
are contiguous from offset 0, the emitted bytes followed by the write
buffer are exactly the bytes written so far (`w`), and `self.pos` counts
them. -/
def WInv (w : Bytes) (s : WState) : Prop :=
  1 ≤ s.chunksize ∧ chainedB 0 s.chunks = true ∧
    chunksData s.chunks ++ s.writebuf = w ∧ s.pos = w.length

/-! ### Reader (`ChunkedFile` opened with `mode='r'`) -/

/-- `_chunks` returns the chunk list sorted by parsed logical offset. -/
def sortChunks (cs : List Chunk) : List Chunk :=
  List.insertionSort (fun c1 c2 => c1.pos ≤ c2.pos) cs

/-- Reader-side state of a `ChunkedFile`: the sorted chunk list, the index
of the next chunk to load (`self.chunkidx + 1`), `self.pos` (bytes
delivered so far), `self.readbuf` and the EOF flag. -/
structure RState where
  chunks : List Chunk
  nexti : Nat
  pos : Nat
  readbuf : Bytes
  eof : Bool
deriving Repr, DecidableEq

/-- State right after opening for reading: `chunkidx = -1`, `pos = 0`,
empty read buffer. -/
def freshR (cs : List Chunk) : RState :=
  ⟨sortChunks cs, 0, 0, [], false⟩

/-- The `while` loop of `ChunkedFile.read` for a non-negative size: call
`_next_chunk` until the read buffer holds `n` bytes; `_next_chunk`
advances `chunkidx` and either appends the next chunk's payload or raises
`EOFError` (caught by `read`) once the chunks are exhausted. -/
def fillLoop : Nat → Nat → RState → RState
  | 0, _, s => s
  | fuel + 1, n, s =>
    if s.readbuf.length < n then
      if h : s.nexti < s.chunks.length then
        fillLoop fuel n { s with
          nexti := s.nexti + 1
          readbuf := s.readbuf ++ (s.chunks.get ⟨s.nexti, h⟩).data }
      else { s with nexti := s.nexti + 1, eof := true }
    else s

/-- Entry point of the read loop; a fuel of one more than the number of
unread chunks always reaches the loop's own exit condition. -/
def fillTo (n : Nat) (s : RState) : RState :=
  fillLoop (s.chunks.length - s.nexti + 1) n s

/-- `ChunkedFile.read(size)` for `size ≥ 0`: fill the buffer, return its
first `size` bytes (fewer at EOF), and advance `self.pos` by the number of
bytes actually returned. -/
def readPos (n : Nat) (s : RState) : Bytes × RState :=
  let s' := fillTo n s
  let ret := s'.readbuf.take n
  (ret, { s' with readbuf := s'.readbuf.drop n, pos := s'.pos + ret.length })

/-- The `while` loop of `ChunkedFile.read` for `size=-1`: load every
remaining chunk. -/
def fillAllLoop : Nat → RState → RState
  | 0, s => s
  | fuel + 1, s =>
    if h : s.nexti < s.chunks.length then
      fillAllLoop fuel { s with
        nexti := s.nexti + 1
        readbuf := s.readbuf ++ (s.chunks.get ⟨s.nexti, h⟩).data }
    else { s with nexti := s.nexti + 1, eof := true }

/-- Entry point of the read-to-end loop, with sufficient fuel. -/
def fillAll (s : RState) : RState :=
  fillAllLoop (s.chunks.length - s.nexti + 1) s

/-- `ChunkedFile.read(-1)`: read to the end of the sub-stream. -/
def readNeg (s : RState) : Bytes × RState :=
  let s' := fillAll s
  (s'.readbuf, { s' with readbuf := [], pos := s'.pos + s'.readbuf.length })

/-- The chunk-locating loop of `ChunkedFile.seek`: scan all chunks and for
every chunk whose offset is `≤ offset` record `chunkidx = idx - 1`
(i.e. `nexti = idx`) and `pos = chunk.pos`; the final values belong to the
last such chunk. -/
def seekScan (off : Nat) : List Chunk → Nat → Nat × Nat → Nat × Nat
  | [], _, acc => acc
  | c :: rest, idx, acc =>
    seekScan off rest (idx + 1) (if c.pos ≤ off then (idx, c.pos) else acc)

/-- `ChunkedFile.seek(offset)` (zip-backed, `whence=0`): reset the read
buffer, locate the last chunk starting at or before `offset`, position at
its start and consume `offset - pos` bytes with `read`. -/
def seekR (off : Nat) (s : RState) : RState :=
  let ip := seekScan off s.chunks 0 (0, 0)
  (readPos (off - ip.2) { s with readbuf := [], nexti := ip.1, pos := ip.2 }).2

/-- The bytes a reader state still has to deliver: the read buffer
followed by the payloads of the chunks not yet loaded. -/
def remainingR (s : RState) : Bytes :=
  s.readbuf ++ chunksData (s.chunks.drop s.nexti)

/-! ### `ChunkedFile.find_bookmark` -/

/-- The first loop of `find_bookmark`: the running `pos` ends as the
offset of the last chunk whose truthy bookmark is `< key`, or `0`.  Chunk
lists are abstracted to `(pos, bookmark)` pairs, which is all
`find_bookmark` reads; the same code runs on byte-level and line-level
chunk lists. -/
def fbPosGo (key : Bytes) (p : Nat) : List (Nat × Option Bytes) → Nat
  | [] => p
  | c :: rest => fbPosGo key (if bmTruthy c.2 && lexLt (c.2.getD []) key then c.1 else p) rest

/-- `ChunkedFile.find_bookmark(key)` (without `give_range`). -/
def findBookmark (key : Bytes) (cs : List (Nat × Option Bytes)) : Nat := fbPosGo key 0 cs

/-- The second loop of `find_bookmark` under `give_range=True`: once a
chunk with a truthy bookmark `> key` is seen (`ret_next = 1`), the *next*
chunk's offset is returned; `None` if the scan ends first. -/
def fbEndGo (key : Bytes) : Bool → List (Nat × Option Bytes) → Option Nat
  | _, [] => none
  | true, c :: _ => some c.1
  | false, c :: rest =>
    if bmTruthy c.2 && lexLt key (c.2.getD []) then fbEndGo key true rest
    else fbEndGo key false rest

/-- `ChunkedFile.find_bookmark(key, give_range=True)`. -/
def findBookmarkRange (key : Bytes) (cs : List (Nat × Option Bytes)) : Nat × Option Nat :=
  (findBookmark key cs, fbEndGo key false cs)

/-! ### Line-level model of a bookmark-planned sub-stream

`_run_search` of `parsers.py` consumes the sub-stream through the line
iterator.  Sub-streams of bookmark-planned parsers are written with
`autoflush=False`, so their chunk boundaries fall on line boundaries and
the stream is modelled as chunks of whole lines.  A line carries what
`_parse_line` makes of it together with its byte length. -/

/-- The three outcomes of `_parse_line` on one line: `stop` models `None`
(end of data), `skip` models the empty tuple (ignore this line), and
`record` a record whose first element is the key matched against queries;
`val` abstracts the rest of the parsed tuple. -/
inductive ParseOut where
  | stop
  | skip
  | record (key : Bytes) (val : Nat)
deriving Repr, DecidableEq

/-- One line of a bookmark-planned sub-stream. -/
structure BLine where
  out : ParseOut
  len : Nat
deriving Repr, DecidableEq

/-- One chunk of whole lines. -/
structure BChunk where
  pos : Nat
  lines : List BLine
  bm : Option Bytes
deriving Repr, DecidableEq

/-- The lines of the whole sub-stream, in order. -/
def allLines (f : List BChunk) : List BLine := (f.map BChunk.lines).flatten

/-- The `(pos, bookmark)` view of the chunks, as `find_bookmark` sees it. -/
def chunkMeta (f : List BChunk) : List (Nat × Option Bytes) :=
  f.map (fun c => (c.pos, c.bm))

/-- Logical byte offset of line `i`: total length of the lines before it.
`fileobj.tell()` returns this for the lines consumed so far. -/
def lineStart (ls : List BLine) (i : Nat) : Nat := ((ls.take i).map BLine.len).sum

/-- Index of the line at byte offset `off`: `seek(off)` followed by line
iteration resumes at this line (offsets produced by the planner are chunk
starts, which are line starts). -/
def seekIdx (off : Nat) : List BLine → Nat
  | [] => 0
  | l :: rest => if off = 0 then 0 else seekIdx (off - l.len) rest + 1

/-! ### Seek planner: `_find_seeks_bookmarks` -/

/-- Python 2 `<` with the left operand possibly `None`: `None` compares
less than every integer. -/
def pyOptLtNat : Option Nat → Nat → Bool
  | none, _ => true
  | some m, n => decide (m < n)

/-- Python truthiness of an optional integer: `None` and `0` are falsy. -/
def pyTruthyOptNat : Option Nat → Bool
  | none => false
  | some n => decide (n ≠ 0)

/-- Dictionary lookup (`start in endlocs` / `endlocs[start]`). -/
def lookupAssoc (k : Nat) : List (Nat × Option Nat) → Option (Option Nat)
  | [] => none
  | kv :: rest => if k = kv.1 then some kv.2 else lookupAssoc k rest

/-- Dictionary update `endlocs[start] = v`. -/
def setAssoc (k : Nat) (v : Option Nat) : List (Nat × Option Nat) → List (Nat × Option Nat)
  | [] => [(k, v)]
  | kv :: rest => if k = kv.1 then (k, v) :: rest else kv :: setAssoc k v rest

/-- Counter update `locs.update((start,))`. -/
def bumpCounter (k : Nat) : List (Nat × Nat) → List (Nat × Nat)
  | [] => [(k, 1)]
  | kv :: rest => if k = kv.1 then (kv.1, kv.2 + 1) :: rest else kv :: bumpCounter k rest

/-- Accumulated planner state: the `locs` Counter and the `endlocs` dict. -/
structure PlanSt where
  locs : List (Nat × Nat)
  endlocs : List (Nat × Option Nat)
deriving Repr, DecidableEq

/-- The body of the first loop of `_find_seeks_bookmarks`, for one query:
`find_bookmark(query, give_range=True)`, then record the range end
(`if not end: ... elif start not in endlocs or endlocs[start] < end: ...`)
and count the start. -/
def planStep (meta : List (Nat × Option Bytes)) (st : PlanSt) (q : Bytes) : PlanSt :=
  let se := findBookmarkRange q meta
  let endlocs :=
    if pyTruthyOptNat se.2 = false then setAssoc se.1 none st.endlocs
    else
      match lookupAssoc se.1 st.endlocs with
      | none => setAssoc se.1 se.2 st.endlocs
      | some old =>
        if pyOptLtNat old (se.2.getD 0) then setAssoc se.1 se.2 st.endlocs else st.endlocs
  ⟨bumpCounter se.1 st.locs, endlocs⟩

/-- The normalization sweep of `_find_seeks_bookmarks`: merge ranges whose
start falls at or before the running end (an infinite end swallows
everything), sum their counts, and emit the previous range whenever a gap
appears.  `start`, `endv`, `n` carry the Python loop variables, with the
initial `end = 0` being the integer zero (`some 0`). -/
def sweepGo (endlocs : List (Nat × Option Nat)) (start : Nat) (endv : Option Nat) (n : Nat) :
    List (Nat × Nat) → List (Nat × Option Nat × Nat)
  | [] => if 0 < n then [(start, endv, n)] else []
  | item :: rest =>
    let ne := (lookupAssoc item.1 endlocs).getD none
    if endv.isNone || decide (item.1 ≤ endv.getD 0) then
      let endv' := if ne.isNone || (endv.isSome && decide (endv.getD 0 < ne.getD 0)) then ne else endv
      sweepGo endlocs start endv' (n + item.2) rest
    else if 0 < n then (start, endv, n) :: sweepGo endlocs item.1 ne item.2 rest
    else sweepGo endlocs item.1 ne item.2 rest

/-- `_find_seeks_bookmarks(fileobj, queries)` as a list of
`(start, end?, nresults)` ranges.  `qs` is the sorted query list
(`for query in sorted(queries)`). -/
def findSeeksBookmarks (qs : List Bytes) (meta : List (Nat × Option Bytes)) :
    List (Nat × Option Nat × Nat) :=
  let st := qs.foldl (planStep meta) ⟨[], []⟩
  sweepGo st.endlocs 0 (some 0) 0 (List.insertionSort (fun a b => a.1 ≤ b.1) st.locs)

/-! ### Point lookup: `_IMDbParser._run_search` -/

/-- Iterator position (`iterIdx` lines consumed by the line iterator) and
the `loc` variable of `_run_search` (the last recorded `tell()`, which
lags behind the iterator after a break at the end location). -/
structure ScanSt where
  iterIdx : Nat
  loc : Nat
deriving Repr, DecidableEq

/-- One run of the inner `for line in fileobj` loop of `_run_search`: stop
on iterator exhaustion, on reaching a truthy end location (the line just
consumed is discarded and `loc` keeps its stale value), on the end-of-data
marker (`parse_line` returns `None`), or — when queries are given — after
yielding the first record whose key is in the query set; skip lines
(`parse_line` returns `()`) just continue.  With `queries=None` every
record is yielded and the loop only stops at the marker or at end of
file.  `⟨st.iterIdx + 1, lineStart lines (st.iterIdx + 1)⟩` is the state
after the `loc = fileobj.tell()` update. -/
def innerLoopF : Nat → Option (List Bytes) → List BLine → Option Nat → ScanSt →
    List (Bytes × Nat) × ScanSt
  | 0, _, _, _, st => ([], st)
  | fuel + 1, qs, lines, endloc, st =>
    match lines[st.iterIdx]? with
    | none => ([], st)
    | some l =>
      if pyTruthyOptNat endloc && decide (st.loc = endloc.getD 0) then
        ([], ⟨st.iterIdx + 1, st.loc⟩)
      else
        match l.out with
        | .stop => ([], ⟨st.iterIdx + 1, lineStart lines (st.iterIdx + 1)⟩)
        | .skip => innerLoopF fuel qs lines endloc ⟨st.iterIdx + 1, lineStart lines (st.iterIdx + 1)⟩
        | .record k v =>
          match qs with
          | none =>
            let r := innerLoopF fuel qs lines endloc
              ⟨st.iterIdx + 1, lineStart lines (st.iterIdx + 1)⟩
            ((k, v) :: r.1, r.2)
          | some qset =>
            if k ∈ qset then ([(k, v)], ⟨st.iterIdx + 1, lineStart lines (st.iterIdx + 1)⟩)
            else innerLoopF fuel qs lines endloc ⟨st.iterIdx + 1, lineStart lines (st.iterIdx + 1)⟩

/-- Entry point of the inner line loop; since every iteration consumes one
line, a fuel of one more than the number of unconsumed lines reaches the
loop's own exit conditions. -/
def innerLoop (qs : Option (List Bytes)) (lines : List BLine) (endloc : Option Nat)
    (st : ScanSt) : List (Bytes × Nat) × ScanSt :=
  innerLoopF (lines.length - st.iterIdx + 1) qs lines endloc st

/-- The `for _ in xrange(nresults)` loop: run the inner loop `n` times,
concatenating the yields. -/
def xrangeLoop (qs : Option (List Bytes)) (lines : List BLine) (endloc : Option Nat) :
    Nat → ScanSt → List (Bytes × Nat) × ScanSt
  | 0, st => ([], st)
  | n + 1, st =>
    let r := innerLoop qs lines endloc st
    let r2 := xrangeLoop qs lines endloc n r.2
    (r.1 ++ r2.1, r2.2)

/-- Python truthiness of the query set inside `_run_search`. -/
def qsTruthy : Option (List Bytes) → Bool
  | none => false
  | some q => !q.isEmpty

/-- The `for startloc, endloc, nresults in locs` loop of `_run_search`:
with truthy queries, seek forward when the next range starts beyond the
current `loc`, skip ranges that start before it, and otherwise scan in
place. -/
def rangesLoop (qs : Option (List Bytes)) (lines : List BLine) :
    List (Nat × Option Nat × Nat) → ScanSt → List (Bytes × Nat)
  | [], _ => []
  | rng :: rest, st =>
    if qsTruthy qs && decide (st.loc < rng.1) then
      let r := xrangeLoop qs lines rng.2.1 rng.2.2 ⟨seekIdx rng.1 lines, rng.1⟩
      r.1 ++ rangesLoop qs lines rest r.2
    else if qsTruthy qs && decide (rng.1 < st.loc) then
      rangesLoop qs lines rest st
    else
      let r := xrangeLoop qs lines rng.2.1 rng.2.2 st
      r.1 ++ rangesLoop qs lines rest r.2

/-- `sorted(set(queries))`: the distinct query keys in ascending order. -/
def dedupSortKeys (q : List Bytes) : List Bytes :=
  List.insertionSort (fun a b => lexLt b a = false) q.dedup

/-- Result of `_run_search` together with whether the sub-stream was
opened and whether the seek planner ran. -/
structure SearchOut where
  results : List (Bytes × Nat)
  opened : Bool
  planned : Bool
deriving Repr, DecidableEq

/-- `_IMDbParser._run_search(queries)` for a bookmark-planned parser:
an empty query set returns at once, before the sub-stream is opened and
before any seek planning; `queries=None` scans the whole sub-stream with
the dummy range list `[(None, None, 1)]`; otherwise the bookmark planner
produces the ranges that drive the scan. -/
def runSearch (queries : Option (List Bytes)) (file : List BChunk) : SearchOut :=
  match queries with
  | some q =>
    let qset := dedupSortKeys q
    if qset.isEmpty then ⟨[], false, false⟩
    else
      ⟨rangesLoop (some qset) (allLines file)
        (findSeeksBookmarks qset (chunkMeta file)) ⟨0, 0⟩, true, true⟩
  | none => ⟨rangesLoop none (allLines file) [(0, none, 1)] ⟨0, 0⟩, true, false⟩

/-! ### Seek planner: `_find_seeks_index`

The secondary-index sub-stream (lines `title \t offsets`) is written with
`autoflush=False`, so its chunk boundaries fall on line boundaries, and
`seek(find_bookmark(...))` positions at a chunk start, which is a line
start.  The offsets it records for the primary sub-stream are the
`tell()` values taken at line starts during rebuild, so the planner's
range starts are line starts of the primary sub-stream as well. -/

/-- One line of a secondary-index sub-stream: a title key and the
decimal offsets listed after the tab. -/
structure ILine where
  title : Bytes
  nums : List Nat
  len : Nat
deriving Repr, DecidableEq

/-- One chunk of whole index lines. -/
structure IChunk where
  pos : Nat
  lines : List ILine
  bm : Option Bytes
deriving Repr, DecidableEq

/-- The lines of the whole index sub-stream, in order. -/
def allILines (f : List IChunk) : List ILine := (f.map IChunk.lines).flatten

/-- The `(pos, bookmark)` view of the index chunks. -/
def ichunkMeta (f : List IChunk) : List (Nat × Option Bytes) :=
  f.map (fun c => (c.pos, c.bm))

/-- Index of the index line at byte offset `off` (offsets produced by
`find_bookmark` are chunk starts, which are line starts). -/
def seekIdxI (off : Nat) : List ILine → Nat
  | [] => 0
  | l :: rest => if off = 0 then 0 else seekIdxI (off - l.len) rest + 1

/-- The inner `for line in indexfh` loop of `_find_seeks_index` for one
query: collect the referenced offsets of every line whose title is in the
query set, and stop — consuming the line — at the first line whose title
is greater than the current query and not in the query set.  Returns the
iterator position and the updated `locs` Counter. -/
def idxScanF : Nat → List Bytes → Bytes → List ILine → Nat → List (Nat × Nat) →
    Nat × List (Nat × Nat)
  | 0, _, _, _, i, locs => (i, locs)
  | fuel + 1, qs, query, lines, i, locs =>
    match lines[i]? with
    | none => (i, locs)
    | some l =>
      if l.title ∈ qs then
        idxScanF fuel qs query lines (i + 1) (l.nums.foldl (fun c o => bumpCounter o c) locs)
      else if lexLt query l.title then (i + 1, locs)
      else idxScanF fuel qs query lines (i + 1) locs

/-- Accumulated state of `_find_seeks_index`: the index-file iterator
position, `last_bookmark` and the `locs` Counter. -/
structure IdxSt where
  iterIdx : Nat
  lastBm : Nat
  locs : List (Nat × Nat)
deriving Repr, DecidableEq

/-- `_find_seeks_index(dbfile, indexname, queries)`: for each query in
ascending order, `find_bookmark` the index sub-stream and seek there when
the bookmark changed, scan index lines collecting referenced offsets,
then emit one `(start, None, count)` range per distinct collected offset
in ascending order.  `qs` is the sorted query list. -/
def findSeeksIndex (qs : List Bytes) (idx : List IChunk) : List (Nat × Option Nat × Nat) :=
  let lines := allILines idx
  let meta := ichunkMeta idx
  let fin := qs.foldl (fun st q =>
    let bm := findBookmark q meta
    let st1 : IdxSt := if bm ≠ st.lastBm then ⟨seekIdxI bm lines, bm, st.locs⟩ else st
    let r := idxScanF (lines.length - st1.iterIdx + 1) qs q lines st1.iterIdx st1.locs
    ⟨r.1, st1.lastBm, r.2⟩) (⟨0, 0, []⟩ : IdxSt)
  (List.insertionSort (fun a b => a.1 ≤ b.1) fin.locs).map fun kv =>
    (kv.1, (none : Option Nat), kv.2)

/-- `_IMDbParser._run_search(queries)` for a parser with a secondary
index (`self.indexname` set): the same early return and reading loop as
`runSearch`, but the ranges come from `_find_seeks_index` over the index
sub-stream. -/
def runSearchIndexed (queries : Option (List Bytes)) (file : List BChunk)
    (idx : List IChunk) : SearchOut :=
  match queries with
  | some q =>
    let qset := dedupSortKeys q
    if qset.isEmpty then ⟨[], false, false⟩
    else
      ⟨rangesLoop (some qset) (allLines file)
        (findSeeksIndex qset idx) ⟨0, 0⟩, true, true⟩
  | none => ⟨rangesLoop none (allLines file) [(0, none, 1)] ⟨0, 0⟩, true, false⟩

/-! ### `search.py`: candidate acceptance in `_search_index` -/

/-- Python `needle in hay` on strings, at the character-list level. -/
def listHasInfix (hay needle : List Char) : Bool :=
  needle.isPrefixOf hay ||
    match hay with
    | [] => false
    | _ :: t => listHasInfix t needle

/-- One parsed line of the search index `<archive>.idx`:
`SEARCHABLE \t YEAR \t TITLE \t AKAFOR \t NRATINGS`.  An absent year
models an empty year column. -/
structure IdxLine where
  searchable : String
  ryear : Option Int
  title : String
  akafor : String
  nratings : String
deriving Repr, DecidableEq

/-- The year column as written in the file. -/
def yearField : Option Int → String
  | none => ""
  | some y => toString y

/-- The raw bytes of an index line, the string the fingerprint words are
searched in (`if word in line`). -/
def rawIdxLine (l : IdxLine) : List Char :=
  l.searchable.data ++ '\t' :: (yearField l.ryear).data ++ '\t' :: l.title.data
    ++ '\t' :: l.akafor.data ++ '\t' :: l.nratings.data

/-- The acceptance test of `_search_index` for one line: at least one
fingerprint word occurs in the raw line, and the line survives
`if validyears and ryear and int(ryear) not in validyears: continue`,
where `validyears = range(year-deltayear, year+deltayear) if year else ()`. -/
def acceptLine (wordlist : List String) (year : Int) (deltayear : Int) (l : IdxLine) : Bool :=
  (wordlist.any fun w => listHasInfix (rawIdxLine l) w.data) &&
  !(decide (year ≠ 0) && decide (year - deltayear < year + deltayear) &&
    (match l.ryear with
     | none => false
     | some ry => !(decide (year - deltayear ≤ ry) && decide (ry < year + deltayear))))

/-! ### `IMDbRunningTimeParser._make_result`: duration parsing -/

/-- Value of a decimal digit string (the call sites only pass non-empty
all-digit strings, where Python `int(s, 10)` is this number). -/
def digitsVal (cs : List Char) : Nat := cs.foldl (fun a c => a * 10 + (c.toNat - 48)) 0

/-- Python `int(s, 10)` restricted to the already-stripped strings this
code passes it: an optional sign followed by at least one digit parses,
everything else raises `ValueError` (`none`). -/
def pyInt (cs : List Char) : Option Int :=
  match cs with
  | [] => none
  | c :: rest =>
    if c = '+' then
      if !rest.isEmpty && rest.all Char.isDigit then some ((digitsVal rest : Int)) else none
    else if c = '-' then
      if !rest.isEmpty && rest.all Char.isDigit then some (-(digitsVal rest : Int)) else none
    else if (c :: rest).all Char.isDigit then some ((digitsVal (c :: rest) : Int)) else none

/-- Python `str.strip()` on a character list. -/
def pyStrip (cs : List Char) : List Char :=
  ((cs.dropWhile Char.isWhitespace).reverse.dropWhile Char.isWhitespace).reverse

/-- Python `s.split(':', 1)` viewed from the unpacking
`country, duration = ...`: `none` models the `ValueError` of unpacking a
single part when no colon occurs. -/
def splitColon1 (acc : List Char) : List Char → Option (List Char × List Char)
  | [] => none
  | c :: rest => if c = ':' then some (acc.reverse, rest) else splitColon1 (c :: acc) rest

/-- Index of the first non-digit character, `none` if all are digits. -/
def firstNonDigitIdx : List Char → Option Nat
  | [] => none
  | c :: rest => if c.isDigit then (firstNonDigitIdx rest).map (· + 1) else some 0

/-- The country-strip head of `IMDbRunningTimeParser._make_result`:
`duration[0]` raises `IndexError` on an empty string; when the first
character is not a digit, `country, duration = duration.split(':', 1)`
keeps the part after the first colon and raises `ValueError` if there is
no colon. -/
def durRemainder (s : String) : Except Unit (List Char) :=
  match s.data with
  | [] => .error ()
  | c :: _ =>
    if c.isDigit then .ok s.data
    else
      match splitColon1 [] s.data with
      | none => .error ()
      | some cd => .ok cd.2

/-- The `try: int(...) except ValueError:` tail of `_make_result`, applied
to the stripped duration: try `int(duration, 10)`; on failure take
`int(duration[:i], 10)` at the first non-digit index `i` (which raises
`int('')`'s `ValueError` when `i = 0`), or `None` when the loop finds no
non-digit. -/
def parseTail (d : List Char) : Except Unit (Option Int) :=
  match pyInt d with
  | some n => .ok (some n)
  | none =>
    match firstNonDigitIdx d with
    | some i => if i = 0 then .error () else .ok (some (digitsVal (d.take i)))
    | none => .ok none

/-- The duration parsing of `IMDbRunningTimeParser._make_result`.
`Except.error ()` models an uncaught Python exception. -/
def parseDuration (s : String) : Except Unit (Option Int) :=
  match durRemainder s with
  | .error _ => .error ()
  | .ok d0 => parseTail (pyStrip d0)

/-- Modelled from the spec (amended): after the optional `COUNTRY:` strip
and whitespace strip, a full signed integer parses to its value; otherwise
a remainder with a digit head parses to its leading digits, an empty
remainder gives `None`, and a non-empty remainder with a non-digit head
raises. -/
def specTail (d : List Char) : Except Unit (Option Int) :=
  if (pyInt d).isSome then .ok (pyInt d)
  else
    match d with
    | [] => .ok none
    | c :: _ =>
      if c.isDigit then .ok (some (digitsVal (d.takeWhile Char.isDigit)))
      else .error ()

/-- The whole spec-side description of the duration parse. -/
def specParseDuration (s : String) : Except Unit (Option Int) :=
  match durRemainder s with
  | .error _ => .error ()
  | .ok d0 => specTail (pyStrip d0)

/-! ### `_IMDbNamesParser.search`: credit sorting -/

/-- One credit as produced by `_IMDbNamesParser._parse_line`:
`(person, character?, order?, notes?)`. -/
structure Credit where
  person : String
  character : Option String
  order : Option Nat
  notes : Option String
deriving Repr, DecidableEq

/-- The sort key of `_IMDbNamesParser.search`:
`9999 if x[2] is None else x[2]`. -/
def castSortKey (c : Credit) : Nat :=
  match c.order with
  | none => 9999
  | some o => o

/-- `datalist.sort(key=lambda x: 9999 if x[2] is None else x[2])`:
a stable ascending sort by `castSortKey`. -/
def namesSort (l : List Credit) : List Credit :=
  List.insertionSort (fun a b => castSortKey a ≤ castSortKey b) l

/-! ### `ChunkedFile.__init__`: mode validation -/

/-- The mode check `if mode not in 'rwa': raise ValueError(...)`: Python's
`in` on strings is a substring test, so the constructor's own validation
passes exactly the contiguous substrings of `"rwa"`. -/
def initModeOk (mode : String) : Bool := listHasInfix "rwa".data mode.data

/-! ### Spec-side reference definitions -/

/-- Modelled from the spec sentence for `find_bookmark`: the logical
offset of the last chunk whose bookmark is strictly less than the key, or
`0` if there is none. -/
def specLastLtPos (key : Bytes) (cs : List (Nat × Option Bytes)) : Nat :=
  (((cs.filter fun c => bmTruthy c.2 && lexLt (c.2.getD []) key).map Prod.fst).getLast?).getD 0

/-- The claim's reading of the `give_range` end: the logical offset of the
first chunk whose bookmark is strictly greater than the key. -/
def specFirstGtPos (key : Bytes) (cs : List (Nat × Option Bytes)) : Option Nat :=
  (cs.find? fun c => bmTruthy c.2 && lexLt key (c.2.getD [])).map Prod.fst

/-- What the code's `give_range` loop computes (amended claim): the
logical offset of the chunk immediately after the first chunk whose
bookmark is strictly greater than the key, `none` when that chunk is last
or absent. -/
def specAfterGtPos (key : Bytes) : List (Nat × Option Bytes) → Option Nat
  | [] => none
  | c :: rest =>
    if bmTruthy c.2 && lexLt key (c.2.getD []) then rest.head?.map Prod.fst
    else specAfterGtPos key rest

/-- The records a full sequential scan yields: every record line up to
the end-of-data marker, with skip lines passed over. -/
def extractRecs : List BLine → List (Bytes × Nat)
  | [] => []
  | l :: rest =>
    match l.out with
    | .stop => []
    | .skip => extractRecs rest
    | .record k v => (k, v) :: extractRecs rest

end Imdb

deriving instance DecidableEq for Except

namespace Imdb

/-! ## Theorems -/

/-! ### C4: `find_bookmark` -/

theorem getLast?_getD_cons {α} (a d : α) (l : List α) :
    ((a :: l).getLast?).getD d = (l.getLast?).getD a := by
  induction l generalizing a d with
  | nil => rfl
  | cons b t ih => rw [List.getLast?_cons_cons, ih b d, ih b a]

theorem fbPosGo_eq (key : Bytes) (cs : List (Nat × Option Bytes)) : ∀ p : Nat,
    fbPosGo key p cs =
      (((cs.filter fun c => bmTruthy c.2 && lexLt (c.2.getD []) key).map Prod.fst).getLast?).getD
        p := by
  induction cs with
  | nil => intro p; rfl
  | cons c rest ih =>
    intro p
    rw [fbPosGo, List.filter_cons]
    cases hb : (bmTruthy c.2 && lexLt (c.2.getD []) key)
    · simp only [hb, Bool.false_eq_true, if_false, ih]
    · simp only [hb, if_true, ih, List.map_cons, getLast?_getD_cons]

theorem fbEndGo_true (key : Bytes) (l : List (Nat × Option Bytes)) :
    fbEndGo key true l = l.head?.map Prod.fst := by
  cases l <;> rfl

theorem fbEndGo_false_eq (key : Bytes) (cs : List (Nat × Option Bytes)) :
    fbEndGo key false cs = specAfterGtPos key cs := by
  induction cs with
  | nil => rfl
  | cons c rest ih =>
    rw [fbEndGo, specAfterGtPos]
    by_cases hc : (bmTruthy c.2 && lexLt key (c.2.getD [])) = true
    · rw [if_pos hc, if_pos hc, fbEndGo_true]
    · rw [if_neg hc, if_neg hc, ih]

/-- C4 counterexample: for chunks at offsets 0 and 10 with bookmarks
`[0]` and `[2]` and key `[1]`, the claim's range end — the offset of the
first chunk with bookmark greater than the key — is `10`, but the code
returns `(0, None)`: the end is the offset of the chunk *after* the first
bookmark greater than the key, and here that chunk is last. -/
theorem c4_counterexample :
    findBookmarkRange [1] [(0, some [0]), (10, some [2])] = (0, none) ∧
    specFirstGtPos [1] [(0, some [0]), (10, some [2])] = some 10 ∧
    (none : Option Nat) ≠ some 10 := by decide

/-- C4 (amended): `find_bookmark(key)` returns the logical offset of the
last chunk whose truthy bookmark is `< key` (or 0), and with
`give_range=True` the range end is the logical offset of the chunk
immediately following the first chunk whose truthy bookmark is `> key`,
or `None` when that chunk is last or absent. -/
theorem c4_find_bookmark (key : Bytes) (cs : List (Nat × Option Bytes)) :
    findBookmarkRange key cs = (specLastLtPos key cs, specAfterGtPos key cs) := by
  unfold findBookmarkRange findBookmark specLastLtPos
  rw [fbPosGo_eq, fbEndGo_false_eq]

/-! ### C9: constructor mode validation -/

theorem infix_rwa_iff (l : List Char) :
    listHasInfix ['r', 'w', 'a'] l = true ↔
      l = [] ∨ l = ['r'] ∨ l = ['w'] ∨ l = ['a'] ∨ l = ['r', 'w'] ∨ l = ['w', 'a'] ∨
        l = ['r', 'w', 'a'] := by
  rcases l with _ | ⟨a, _ | ⟨b, _ | ⟨c, _ | ⟨e, t⟩⟩⟩⟩ <;>
    simp [listHasInfix, List.isPrefixOf]

/-- C9 counterexample: the mode string `"rw"` is not one of `'r'`, `'w'`,
`'a'`, yet the constructor's `mode not in 'rwa'` check accepts it (Python
`in` on strings is a substring test), so no `ValueError` is raised by the
mode validation. -/
theorem c9_counterexample :
    initModeOk "rw" = true ∧ ("rw" : String) ∉ (["r", "w", "a"] : List String) := by decide

/-- C9 (amended): the constructor's own mode validation accepts exactly
the contiguous substrings of `"rwa"` — `''`, `'r'`, `'w'`, `'a'`, `'rw'`,
`'wa'`, `'rwa'` — and raises `ValueError` for every other mode string.
(Strings such as `'rw'` thus pass this check and can only fail later, in
the zip layer outside this component.) -/
theorem c9_mode_check (m : String) :
    initModeOk m = true ↔
      m = "" ∨ m = "r" ∨ m = "w" ∨ m = "a" ∨ m = "rw" ∨ m = "wa" ∨ m = "rwa" := by
  have h : listHasInfix "rwa".data m.data = true ↔
      (m.data = [] ∨ m.data = ['r'] ∨ m.data = ['w'] ∨ m.data = ['a'] ∨ m.data = ['r', 'w'] ∨
        m.data = ['w', 'a'] ∨ m.data = ['r', 'w', 'a']) := infix_rwa_iff m.data
  unfold initModeOk
  rw [h]
  constructor
  · rintro (h' | h' | h' | h' | h' | h' | h')
    · exact Or.inl (String.ext h')
    · exact Or.inr (Or.inl (String.ext h'))
    · exact Or.inr (Or.inr (Or.inl (String.ext h')))
    · exact Or.inr (Or.inr (Or.inr (Or.inl (String.ext h'))))
    · exact Or.inr (Or.inr (Or.inr (Or.inr (Or.inl (String.ext h')))))
    · exact Or.inr (Or.inr (Or.inr (Or.inr (Or.inr (Or.inl (String.ext h'))))))
    · exact Or.inr (Or.inr (Or.inr (Or.inr (Or.inr (Or.inr (String.ext h'))))))
  · rintro (h' | h' | h' | h' | h' | h' | h') <;> subst h' <;> decide

/-! ### C10: empty query set -/

/-- C10: `_run_search` with an empty (non-`None`) query collection
returns an empty result at once: the sub-stream is never opened and no
seek planning happens. -/
theorem c10_empty_queries (file : List BChunk) :
    runSearch (some []) file = ⟨[], false, false⟩ := rfl

/-! ### C8: credit sorting in `_IMDbNamesParser.search` -/

/-- C8 counterexample: a credit with order 10000 sorts *after* the credit
with a missing order, because a missing order is given the key 9999 —
so a credit without an order is not sorted after every credit that has
one. -/
theorem c8_counterexample :
    namesSort [⟨"a", none, some 10000, none⟩, ⟨"b", none, none, none⟩] =
      [⟨"b", none, none, none⟩, ⟨"a", none, some 10000, none⟩] ∧
    (⟨"b", none, none, none⟩ : Credit).order = none ∧
    (⟨"a", none, some 10000, none⟩ : Credit).order = some 10000 := by decide

/-- C8 (amended): the per-title credit list is a permutation of the
parsed credits sorted (stably) in ascending order of the key that maps a
missing order to 9999 and a present order to itself — so credits with a
missing order sort after every credit with order < 9999, but before
credits with order > 9999. -/
theorem c8_names_sorted (l : List Credit) :
    List.Sorted (fun a b => castSortKey a ≤ castSortKey b) (namesSort l) ∧
      (namesSort l).Perm l := by
  constructor
  · haveI : IsTotal Credit fun a b => castSortKey a ≤ castSortKey b :=
      ⟨fun a b => Nat.le_total _ _⟩
    haveI : IsTrans Credit fun a b => castSortKey a ≤ castSortKey b :=
      ⟨fun _ _ _ => Nat.le_trans⟩
    exact List.sorted_insertionSort _ _
  · exact List.perm_insertionSort _ _

/-! ### C6: year filtering in `_search_index` -/

/-- C6 counterexample: with `year=2000` and the default `deltayear=8`, an
index line with a matching fingerprint and year column `2008` lies in the
claim's closed interval `[1992, 2008]`, yet `_search_index` rejects it:
`validyears = range(1992, 2008)` excludes its upper endpoint. -/
theorem c6_counterexample :
    acceptLine ["hello"] 2000 8 ⟨"hello", some 2008, "t", "", "0"⟩ = false ∧
    ((2000 : Int) - 8 ≤ 2008 ∧ (2008 : Int) ≤ 2000 + 8) ∧
    (["hello"].any fun w =>
      listHasInfix (rawIdxLine ⟨"hello", some 2008, "t", "", "0"⟩) w.data) = true := by
  decide

/-- C6 (amended): when a non-zero year `y` and a deltayear `d ≥ 1` are
given, an index line that contains a fingerprint substring and has a
non-empty year column is accepted iff its year lies in the half-open
interval `[y - d, y + d)`; in particular no candidate with a known year
outside that interval is ever returned. -/
theorem c6_year_filter (wl : List String) (y d ry : Int) (l : IdxLine)
    (hy : y ≠ 0) (hd : 1 ≤ d) (hry : l.ryear = some ry)
    (hfp : (wl.any fun w => listHasInfix (rawIdxLine l) w.data) = true) :
    acceptLine wl y d l = true ↔ (y - d ≤ ry ∧ ry < y + d) := by
  unfold acceptLine
  rw [hfp, hry]
  have h2 : y - d < y + d := by omega
  rw [decide_eq_true hy, decide_eq_true h2]
  simp

/-- Witness: the amended year filter evaluated at `y = 2000`, `d = 8`,
`ry = 2007`. -/
theorem c6_year_filter_witness :
    (2000 : Int) ≠ 0 ∧ (1 : Int) ≤ 8 ∧
      (acceptLine ["hello"] 2000 8 ⟨"hello", some 2007, "t", "", "0"⟩ = true ↔
        ((2000 : Int) - 8 ≤ 2007 ∧ (2007 : Int) < 2000 + 8)) :=
  ⟨by decide, by decide,
    c6_year_filter ["hello"] 2000 8 2007 ⟨"hello", some 2007, "t", "", "0"⟩
      (by decide) (by decide) rfl (by decide)⟩

/-! ### C7: running-time duration parsing -/

theorem firstNonDigitIdx_eq_none {l : List Char} :
    firstNonDigitIdx l = none ↔ l.all Char.isDigit = true := by
  induction l with
  | nil => simp [firstNonDigitIdx]
  | cons c rest ih =>
    by_cases hc : c.isDigit
    · simp [firstNonDigitIdx, hc, ih]
    · simp [firstNonDigitIdx, hc]

theorem firstNonDigitIdx_take {l : List Char} : ∀ {i : Nat}, firstNonDigitIdx l = some i →
    l.take i = l.takeWhile Char.isDigit := by
  induction l with
  | nil => intro i h; simp [firstNonDigitIdx] at h
  | cons c rest ih =>
    intro i h
    by_cases hc : c.isDigit
    · rw [firstNonDigitIdx, if_pos hc] at h
      cases hr : firstNonDigitIdx rest with
      | none => rw [hr] at h; simp at h
      | some j =>
        rw [hr] at h
        simp only [Option.map_some'] at h
        injection h with h2
        subst h2
        rw [List.take_succ_cons, List.takeWhile_cons_of_pos hc, ih hr]
    · rw [firstNonDigitIdx, if_neg hc] at h
      simp only [Option.some.injEq] at h
      rw [← h, List.take_zero, List.takeWhile_cons_of_neg hc]

theorem pyInt_all_digits {c : Char} {rest : List Char} (hc : c.isDigit = true)
    (hall : (c :: rest).all Char.isDigit = true) :
    pyInt (c :: rest) = some ((digitsVal (c :: rest) : Int)) := by
  have h1 : c ≠ '+' := fun h => by rw [h] at hc; exact absurd hc (by decide)
  have h2 : c ≠ '-' := fun h => by rw [h] at hc; exact absurd hc (by decide)
  rw [pyInt, if_neg h1, if_neg h2, if_pos hall]

theorem parseTail_eq_specTail (d : List Char) : parseTail d = specTail d := by
  unfold parseTail specTail
  cases hpy : pyInt d with
  | some n => simp [hpy]
  | none =>
    simp only [hpy, Option.isSome_none, Bool.false_eq_true, if_false]
    cases d with
    | nil => simp [firstNonDigitIdx]
    | cons c rest =>
      by_cases hc : c.isDigit
      · cases hj : firstNonDigitIdx rest with
        | none =>
          exfalso
          have hall : (c :: rest).all Char.isDigit = true := by
            simp [List.all_cons, hc, firstNonDigitIdx_eq_none.mp hj]
          rw [pyInt_all_digits hc hall] at hpy
          exact Option.noConfusion hpy
        | some j =>
          have hidx : firstNonDigitIdx (c :: rest) = some (j + 1) := by
            rw [firstNonDigitIdx, if_pos hc, hj]; rfl
          rw [hidx]
          simp only [Nat.succ_ne_zero, if_false, hc, if_true]
          rw [firstNonDigitIdx_take hidx]
      · have hidx : firstNonDigitIdx (c :: rest) = some 0 := by
          rw [firstNonDigitIdx, if_neg hc]
        rw [hidx]
        simp [hc]

/-- C7 counterexample: on the duration string `"USA:x"` — no leading
digits after the `COUNTRY:` strip — the parse raises
(`int(duration[:0], 10)` is `int('')`, a `ValueError`), it does not
return `None` as the claim states. -/
theorem c7_counterexample :
    parseDuration "USA:x" = Except.error () ∧
    parseDuration "USA:x" ≠ Except.ok none := by decide

/-- C7 (amended): the duration string, after the optional `COUNTRY:`
strip (an `IndexError`/`ValueError` when it is empty or starts with a
non-digit and has no colon) and whitespace strip, parses to a full signed
integer when it is one; otherwise to its leading digits when it starts
with a digit; to `None` when it is empty; and raises a `ValueError`
instead of returning `None` when it is non-empty and starts with a
non-digit. -/
theorem c7_duration_parse (s : String) : parseDuration s = specParseDuration s := by
  unfold parseDuration specParseDuration
  cases durRemainder s with
  | error e => rfl
  | ok d0 => exact parseTail_eq_specTail (pyStrip d0)

/-- The claim's worked examples, evaluated on the model: `"1o7"` parses
to 1, `"2 1/2"` and `"2 x 90"` to 2, `"USA:30"` to 30, and a duration
that is empty after the country strip gives `None`. -/
theorem parseDuration_examples :
    parseDuration "1o7" = .ok (some 1) ∧ parseDuration "2 1/2" = .ok (some 2) ∧
    parseDuration "2 x 90" = .ok (some 2) ∧ parseDuration "USA:30" = .ok (some 30) ∧
    parseDuration "USA:" = .ok none := by decide

/-! ### Writer invariant (C1, C5) -/

theorem chunksData_nil : chunksData [] = [] := rfl

theorem chunksData_cons (c : Chunk) (cs : List Chunk) :
    chunksData (c :: cs) = c.data ++ chunksData cs := by
  simp [chunksData]

theorem chunksData_append (a b : List Chunk) :
    chunksData (a ++ b) = chunksData a ++ chunksData b := by
  simp [chunksData]

theorem chainedB_cons {p : Nat} {c : Chunk} {cs : List Chunk} :
    chainedB p (c :: cs) = true ↔
      c.pos = p ∧ c.data ≠ [] ∧ chainedB (p + c.data.length) cs = true := by
  simp [chainedB, List.isEmpty_iff, and_assoc]

theorem chainedB_snoc {p : Nat} {cs : List Chunk} {c : Chunk}
    (h : chainedB p cs = true) (hpos : c.pos = p + (chunksData cs).length)
    (hne : c.data ≠ []) : chainedB p (cs ++ [c]) = true := by
  induction cs generalizing p with
  | nil =>
    rw [List.nil_append, chainedB_cons]
    exact ⟨by simpa [chunksData_nil] using hpos, hne, rfl⟩
  | cons d rest ih =>
    rw [chainedB_cons] at h
    obtain ⟨h1, h2, h3⟩ := h
    rw [List.cons_append, chainedB_cons]
    refine ⟨h1, h2, ih h3 ?_⟩
    rw [hpos, chunksData_cons]
    simp [Nat.add_assoc]

theorem emitChunk_inv {w : Bytes} {s : WState} (bm : Option Bytes)
    (hw : WInv w s) (hbuf : s.writebuf ≠ []) : WInv w (emitChunk bm s) := by
  obtain ⟨hcs, hch, hcat, hpos⟩ := hw
  have hlen : (chunksData s.chunks).length + s.writebuf.length = w.length := by
    rw [← hcat]; simp
  have hchunkpos : s.pos - s.writebuf.length = (chunksData s.chunks).length := by
    omega
  refine ⟨hcs, ?_, ?_, hpos⟩
  · exact chainedB_snoc hch (by simpa using hchunkpos)
      (by
        intro hnil
        rcases List.take_eq_nil_iff.mp hnil with h | h
        · omega
        · exact hbuf h)
  · show chunksData (s.chunks ++ [_]) ++ s.writebuf.drop s.chunksize = w
    rw [chunksData_append, chunksData_cons, chunksData_nil, List.append_nil]
    rw [List.append_assoc, List.take_append_drop]
    exact hcat

theorem flushLoop_inv {w : Bytes} : ∀ (fuel : Nat) (auto : Bool) (bm : Option Bytes) (s : WState),
    WInv w s → WInv w (flushLoop fuel auto bm s) := by
  intro fuel
  induction fuel with
  | zero => intro _ _ s h; exact h
  | succ fuel ih =>
    intro auto bm s h
    rw [flushLoop]
    split
    · next hcond =>
      refine ih auto bm _ (emitChunk_inv bm h ?_)
      rcases Bool.and_eq_true .. |>.mp hcond with ⟨h1, _⟩
      simpa [List.isEmpty_iff] using h1
    · exact h

theorem flushW_inv {w : Bytes} (auto : Bool) (bm : Option Bytes) {s : WState}
    (h : WInv w s) : WInv w (flushW auto bm s) := by
  unfold flushW
  split
  · exact h
  · exact flushLoop_inv _ auto bm s h

theorem writeW_inv {w : Bytes} (d : Bytes) {s : WState} (h : WInv w s) :
    WInv (w ++ d) (writeW d s) := by
  refine flushW_inv true none ?_
  obtain ⟨hcs, hch, hcat, hpos⟩ := h
  refine ⟨hcs, hch, ?_, ?_⟩
  · show chunksData s.chunks ++ (s.writebuf ++ d) = w ++ d
    rw [← List.append_assoc, hcat]
  · show s.pos + d.length = (w ++ d).length
    simp [hpos]

theorem bookmarkW_inv {w : Bytes} (k : Bytes) {s : WState} (h : WInv w s) :
    WInv w (bookmarkW k s) := by
  unfold bookmarkW
  have h' : WInv w { s with lastBm := some k } := h
  split
  · exact flushW_inv false (some k) h'
  · exact h'

theorem closeW_inv {w : Bytes} {s : WState} (h : WInv w s) : WInv w (closeW s) :=
  flushW_inv false none h

theorem freshW_inv (cs : Nat) (af : Bool) (h : 1 ≤ cs) : WInv [] (freshW cs af) :=
  ⟨h, rfl, rfl, rfl⟩

theorem emitChunk_chunksize (bm : Option Bytes) (s : WState) :
    (emitChunk bm s).chunksize = s.chunksize := rfl

theorem flushLoop_empties : ∀ (fuel : Nat) (bm : Option Bytes) (s : WState),
    1 ≤ s.chunksize → s.writebuf.length ≤ fuel →
    (flushLoop fuel false bm s).writebuf = [] := by
  intro fuel
  induction fuel with
  | zero =>
    intro bm s _ hle
    have : s.writebuf = [] := List.length_eq_zero.mp (Nat.le_zero.mp hle)
    simpa [flushLoop] using this
  | succ fuel ih =>
    intro bm s hcs hle
    rw [flushLoop]
    split
    · next hcond =>
      rcases Bool.and_eq_true .. |>.mp hcond with ⟨h1, _⟩
      have hbuf : s.writebuf ≠ [] := by simpa [List.isEmpty_iff] using h1
      refine ih bm _ hcs ?_
      show (s.writebuf.drop s.chunksize).length ≤ fuel
      have : 1 ≤ s.writebuf.length := by
        cases hb : s.writebuf with
        | nil => exact absurd hb hbuf
        | cons x t => simp
      simp only [List.length_drop]
      omega
    · next hcond =>
      by_cases hb : s.writebuf = []
      · exact hb
      · exfalso
        apply hcond
        simp [List.isEmpty_iff, hb]

theorem closeW_writebuf {s : WState} (h : 1 ≤ s.chunksize) : (closeW s).writebuf = [] := by
  unfold closeW flushW
  rw [if_neg (by simp)]
  exact flushLoop_empties _ none s h (Nat.le_refl _)

theorem writeAll_inv {w : Bytes} : ∀ (pieces : List Bytes) {s : WState}, WInv w s →
    WInv (w ++ pieces.flatten) (writeAll pieces s) := by
  intro pieces
  induction pieces generalizing w with
  | nil => intro s h; simpa [writeAll] using h
  | cons p ps ih =>
    intro s h
    have h1 := writeW_inv p h
    have h2 := ih (s := writeW p s) h1
    simpa [writeAll, List.append_assoc] using h2

/-! ### C1: container round trip -/

theorem chainedB_le : ∀ {p : Nat} {cs : List Chunk}, chainedB p cs = true →
    ∀ c ∈ cs, p ≤ c.pos := by
  intro p cs
  induction cs generalizing p with
  | nil => intro _ c hc; exact absurd hc (List.not_mem_nil c)
  | cons d rest ih =>
    intro h c hc
    rw [chainedB_cons] at h
    obtain ⟨h1, _, h3⟩ := h
    rcases List.mem_cons.mp hc with rfl | hmem
    · omega
    · have := ih h3 c hmem
      omega

theorem chainedB_sorted {p : Nat} {cs : List Chunk} (h : chainedB p cs = true) :
    List.Sorted (fun a b : Chunk => a.pos ≤ b.pos) cs := by
  induction cs generalizing p with
  | nil => exact List.sorted_nil
  | cons c rest ih =>
    rw [chainedB_cons] at h
    obtain ⟨h1, h2, h3⟩ := h
    refine List.sorted_cons.mpr ⟨?_, ih h3⟩
    intro b hb
    have := chainedB_le h3 b hb
    omega

theorem sortChunks_of_chained {p : Nat} {cs : List Chunk} (h : chainedB p cs = true) :
    sortChunks cs = cs :=
  List.Sorted.insertionSort_eq (chainedB_sorted h)

theorem fillAllLoop_readbuf : ∀ (fuel : Nat) (s : RState),
    s.chunks.length - s.nexti < fuel →
    (fillAllLoop fuel s).readbuf = s.readbuf ++ chunksData (s.chunks.drop s.nexti) := by
  intro fuel
  induction fuel with
  | zero => intro s h; omega
  | succ fuel ih =>
    intro s h
    rw [fillAllLoop]
    split
    · next hlt =>
      rw [ih _ (by simp; omega)]
      show s.readbuf ++ (s.chunks.get ⟨s.nexti, hlt⟩).data
          ++ chunksData (s.chunks.drop (s.nexti + 1)) = _
      rw [List.drop_eq_getElem_cons hlt, chunksData_cons, List.append_assoc]
      rfl
    · next hge =>
      have : s.chunks.drop s.nexti = [] := List.drop_eq_nil_of_le (by omega)
      simp [this, chunksData_nil]

theorem readNeg_fresh (cs : List Chunk) :
    (readNeg (freshR cs)).1 = chunksData (sortChunks cs) := by
  show (fillAll (freshR cs)).readbuf = _
  unfold fillAll
  rw [fillAllLoop_readbuf _ _ (by omega)]
  simp [freshR]

/-- C1: for every chunk size `c ≥ 1`, writing a byte string into a fresh
sub-stream as any sequence of `write` calls, closing, reopening for
reading and reading to the end returns exactly the written bytes. -/
theorem c1_roundtrip (pieces : List Bytes) (c : Nat) (af : Bool) (h : 1 ≤ c) :
    (readNeg (freshR (closeW (writeAll pieces (freshW c af))).chunks)).1 =
      pieces.flatten := by
  have hinv : WInv pieces.flatten (writeAll pieces (freshW c af)) := by
    simpa using writeAll_inv pieces (freshW_inv c af h)
  have hfin : WInv pieces.flatten (closeW (writeAll pieces (freshW c af))) := closeW_inv hinv
  obtain ⟨hcs, hch, hcat, _⟩ := hfin
  have hbuf : (closeW (writeAll pieces (freshW c af))).writebuf = [] :=
    closeW_writebuf hinv.1
  rw [hbuf, List.append_nil] at hcat
  rw [readNeg_fresh, sortChunks_of_chained hch, hcat]

/-- Witness for C1 at chunk size 2 with the pieces `[1,2,3]`, `[4,5]`. -/
theorem c1_roundtrip_witness :
    1 ≤ 2 ∧
      (readNeg (freshR (closeW (writeAll [[1, 2, 3], [4, 5]] (freshW 2 true))).chunks)).1 =
        ([[1, 2, 3], [4, 5]] : List Bytes).flatten :=
  ⟨by decide, c1_roundtrip [[1, 2, 3], [4, 5]] 2 true (by decide)⟩

/-! ### C5: chunk layout invariant -/

theorem applyOps_inv : ∀ (ops : List WOp) {w : Bytes} {s : WState}, WInv w s →
    WInv (w ++ opsBytes ops) (applyOps ops s) := by
  intro ops
  induction ops with
  | nil => intro w s h; simpa [applyOps, opsBytes] using h
  | cons op rest ih =>
    intro w s h
    cases op with
    | wr d =>
      have h2 := ih (writeW_inv d h)
      simpa [applyOps, applyOp, opsBytes, List.append_assoc] using h2
    | bk k =>
      have h2 := ih (bookmarkW_inv k h)
      simpa [applyOps, applyOp, opsBytes] using h2
    | fl =>
      have h2 := ih (flushW_inv false none h)
      simpa [applyOps, applyOp, opsBytes] using h2

theorem chainedB_pos_lt : ∀ {p : Nat} {cs : List Chunk}, chainedB p cs = true →
    (cs.map Chunk.pos).Pairwise (· < ·) := by
  intro p cs
  induction cs generalizing p with
  | nil => intro _; simp
  | cons c rest ih =>
    intro h
    rw [chainedB_cons] at h
    obtain ⟨h1, h2, h3⟩ := h
    rw [List.map_cons]
    refine List.Pairwise.cons ?_ (ih h3)
    intro x hx
    obtain ⟨b, hb, rfl⟩ := List.mem_map.mp hx
    have hge := chainedB_le h3 b hb
    have hlen : 1 ≤ c.data.length := by
      cases hd : c.data with
      | nil => exact absurd hd h2
      | cons y t => simp
    omega

theorem chainedB_countP_zero {p : Nat} {cs : List Chunk} (hp : 1 ≤ p)
    (h : chainedB p cs = true) :
    cs.countP (fun c => decide (c.pos = 0)) = 0 := by
  rw [List.countP_eq_zero]
  intro c hc
  have := chainedB_le h c hc
  simp only [decide_eq_true_eq]
  omega

/-- C5: after any sequence of `write`, `bookmark` and `flush` operations
on a fresh sub-stream (chunk size ≥ 1) that wrote at least one byte,
followed by `close`, the emitted chunks are contiguous from offset 0
(each chunk starts where the previous one ended), their logical offsets
are strictly increasing, and exactly one chunk starts at offset 0. -/
theorem c5_chunk_layout (ops : List WOp) (c : Nat) (af : Bool)
    (h1 : 1 ≤ c) (h2 : 1 ≤ (opsBytes ops).length) :
    chainedB 0 (closeW (applyOps ops (freshW c af))).chunks = true ∧
    ((closeW (applyOps ops (freshW c af))).chunks.map Chunk.pos).Pairwise (· < ·) ∧
    (closeW (applyOps ops (freshW c af))).chunks.countP (fun ch => decide (ch.pos = 0)) = 1 := by
  have hinv : WInv (opsBytes ops) (applyOps ops (freshW c af)) := by
    simpa using applyOps_inv ops (freshW_inv c af h1)
  have hfin := closeW_inv hinv
  obtain ⟨hcs, hch, hcat, _⟩ := hfin
  have hbuf := closeW_writebuf hinv.1
  rw [hbuf, List.append_nil] at hcat
  refine ⟨hch, chainedB_pos_lt hch, ?_⟩
  rcases hck : (closeW (applyOps ops (freshW c af))).chunks with _ | ⟨c0, rest⟩
  · rw [hck] at hcat
    rw [← hcat] at h2
    simp [chunksData_nil] at h2
  · rw [hck] at hch
    rw [chainedB_cons] at hch
    obtain ⟨hp0, hne, hrest⟩ := hch
    have hz : rest.countP (fun ch => decide (ch.pos = 0)) = 0 := by
      refine chainedB_countP_zero ?_ hrest
      have : 1 ≤ c0.data.length := by
        cases hd : c0.data with
        | nil => exact absurd hd hne
        | cons y t => simp
      omega
    rw [List.countP_cons, hz, hp0]
    simp

/-! ### C3: seek determinism -/

theorem fillLoop_remaining : ∀ (fuel n : Nat) (s : RState),
    remainingR (fillLoop fuel n s) = remainingR s ∧
    (fillLoop fuel n s).pos = s.pos ∧ (fillLoop fuel n s).chunks = s.chunks := by
  intro fuel
  induction fuel with
  | zero => intro n s; exact ⟨rfl, rfl, rfl⟩
  | succ fuel ih =>
    intro n s
    rw [fillLoop]
    split
    · split
      · next h =>
        obtain ⟨i1, i2, i3⟩ := ih n _
        refine ⟨?_, i2, i3⟩
        rw [i1]
        show (s.readbuf ++ (s.chunks.get ⟨s.nexti, h⟩).data)
            ++ chunksData (s.chunks.drop (s.nexti + 1))
          = s.readbuf ++ chunksData (s.chunks.drop s.nexti)
        rw [List.append_assoc, List.drop_eq_getElem_cons h, chunksData_cons,
          List.get_eq_getElem]
      · next h =>
        refine ⟨?_, rfl, rfl⟩
        show s.readbuf ++ chunksData (s.chunks.drop (s.nexti + 1))
          = s.readbuf ++ chunksData (s.chunks.drop s.nexti)
        have e1 : s.chunks.drop (s.nexti + 1) = [] := List.drop_eq_nil_of_le (by omega)
        have e2 : s.chunks.drop s.nexti = [] := List.drop_eq_nil_of_le (by omega)
        rw [e1, e2]
    · exact ⟨rfl, rfl, rfl⟩

theorem fillLoop_ready : ∀ (fuel n : Nat) (s : RState), s.chunks.length - s.nexti < fuel →
    n ≤ (fillLoop fuel n s).readbuf.length ∨
      (fillLoop fuel n s).chunks.length ≤ (fillLoop fuel n s).nexti := by
  intro fuel
  induction fuel with
  | zero => intro n s h; omega
  | succ fuel ih =>
    intro n s hfuel
    rw [fillLoop]
    split
    · split
      · next h =>
        refine ih n _ ?_
        show s.chunks.length - (s.nexti + 1) < fuel
        omega
      · next h =>
        right
        show s.chunks.length ≤ s.nexti + 1
        omega
    · next h => left; omega

theorem fillTo_spec (n : Nat) (s : RState) :
    remainingR (fillTo n s) = remainingR s ∧ (fillTo n s).pos = s.pos ∧
      (fillTo n s).chunks = s.chunks ∧
      (n ≤ (fillTo n s).readbuf.length ∨ (fillTo n s).readbuf = remainingR s) := by
  unfold fillTo
  obtain ⟨h1, h2, h3⟩ := fillLoop_remaining (s.chunks.length - s.nexti + 1) n s
  refine ⟨h1, h2, h3, ?_⟩
  rcases fillLoop_ready (s.chunks.length - s.nexti + 1) n s (by omega) with h | h
  · exact Or.inl h
  · right
    have hnil : chunksData ((fillLoop (s.chunks.length - s.nexti + 1) n s).chunks.drop
        (fillLoop (s.chunks.length - s.nexti + 1) n s).nexti) = [] := by
      rw [List.drop_eq_nil_of_le h, chunksData_nil]
    have := h1
    unfold remainingR at this
    rw [hnil, List.append_nil] at this
    exact this

theorem readPos_spec (n : Nat) (s : RState) :
    (readPos n s).1 = (remainingR s).take n ∧
    remainingR (readPos n s).2 = (remainingR s).drop n ∧
    (readPos n s).2.pos = s.pos + ((remainingR s).take n).length ∧
    (readPos n s).2.chunks = s.chunks := by
  obtain ⟨h1, h2, h3, h4⟩ := fillTo_spec n s
  have hpref : (fillTo n s).readbuf ++ chunksData ((fillTo n s).chunks.drop (fillTo n s).nexti) =
      remainingR s := h1
  rcases h4 with hge | heq
  · have htake : (fillTo n s).readbuf.take n = (remainingR s).take n := by
      rw [← hpref, List.take_append_of_le_length hge]
    have hdrop : (fillTo n s).readbuf.drop n
        ++ chunksData ((fillTo n s).chunks.drop (fillTo n s).nexti) = (remainingR s).drop n := by
      rw [← hpref, List.drop_append_of_le_length hge]
    exact ⟨htake, hdrop, by rw [show (readPos n s).2.pos =
      (fillTo n s).pos + ((fillTo n s).readbuf.take n).length from rfl, h2, htake], h3⟩
  · have hx : chunksData ((fillTo n s).chunks.drop (fillTo n s).nexti) = [] := by
      have h' := hpref
      rw [heq] at h'
      have : remainingR s ++ chunksData ((fillTo n s).chunks.drop (fillTo n s).nexti) =
          remainingR s ++ [] := by simpa using h'
      exact List.append_cancel_left this
    refine ⟨by rw [show (readPos n s).1 = (fillTo n s).readbuf.take n from rfl, heq],
      ?_, ?_, h3⟩
    · show (fillTo n s).readbuf.drop n
          ++ chunksData ((fillTo n s).chunks.drop (fillTo n s).nexti) = _
      rw [hx, List.append_nil, heq]
    · show (fillTo n s).pos + ((fillTo n s).readbuf.take n).length = _
      rw [h2, heq]

theorem chainedB_drop : ∀ (idx : Nat) {p : Nat} {cs : List Chunk}, chainedB p cs = true →
    chainedB (p + (chunksData (cs.take idx)).length) (cs.drop idx) = true := by
  intro idx
  induction idx with
  | zero => intro p cs h; simpa [chunksData_nil] using h
  | succ idx ih =>
    intro p cs h
    cases cs with
    | nil => simp [chainedB]
    | cons c rest =>
      rw [chainedB_cons] at h
      obtain ⟨h1, h2, h3⟩ := h
      have := ih h3
      simpa [List.take_succ_cons, List.drop_succ_cons, chunksData_cons, List.length_append,
        Nat.add_assoc] using this

theorem seekScan_spec (off : Nat) (full : List Chunk) (hch : chainedB 0 full = true) :
    ∀ (fuel idx : Nat) (acc : Nat × Nat), full.length - idx ≤ fuel →
      acc.2 ≤ off →
      chunksData (full.drop acc.1) = (chunksData full).drop acc.2 →
      (seekScan off (full.drop idx) idx acc).2 ≤ off ∧
        chunksData (full.drop (seekScan off (full.drop idx) idx acc).1) =
          (chunksData full).drop (seekScan off (full.drop idx) idx acc).2 := by
  intro fuel
  induction fuel with
  | zero =>
    intro idx acc hfuel hacc1 hacc2
    rw [List.drop_eq_nil_of_le (by omega)]
    exact ⟨hacc1, hacc2⟩
  | succ fuel ih =>
    intro idx acc hfuel hacc1 hacc2
    cases hdrop : full.drop idx with
    | nil => exact ⟨hacc1, hacc2⟩
    | cons c rest =>
      have hidx : idx < full.length := by
        by_contra hgt
        rw [List.drop_eq_nil_of_le (by omega)] at hdrop
        exact List.noConfusion hdrop
      have hcr : c :: rest = full[idx] :: full.drop (idx + 1) := by
        rw [← hdrop, List.drop_eq_getElem_cons hidx]
      have hc : c = full[idx] := (List.cons.inj hcr).1
      have hrest : rest = full.drop (idx + 1) := (List.cons.inj hcr).2
      rw [seekScan, hrest]
      by_cases hcp : c.pos ≤ off
      · rw [if_pos hcp]
        refine ih (idx + 1) (idx, c.pos) (by omega) hcp ?_
        have hdropped := chainedB_drop idx hch
        rw [hdrop, chainedB_cons] at hdropped
        obtain ⟨hcpos, -, -⟩ := hdropped
        have hsplit : chunksData full = chunksData (full.take idx) ++ chunksData (full.drop idx) := by
          rw [← chunksData_append, List.take_append_drop]
        show chunksData (full.drop idx) = (chunksData full).drop c.pos
        rw [hsplit, hcpos]
        simp [List.drop_left]
      · rw [if_neg hcp]
        exact ih (idx + 1) acc (by omega) hacc1 hacc2

theorem seekR_spec {s : RState} (off : Nat) (hch : chainedB 0 s.chunks = true)
    (hoff : off ≤ (chunksData s.chunks).length) :
    (seekR off s).pos = off ∧ remainingR (seekR off s) = (chunksData s.chunks).drop off ∧
      (seekR off s).chunks = s.chunks := by
  have hscan := seekScan_spec off s.chunks hch s.chunks.length 0 (0, 0) (by omega) (by omega)
    (by simp)
  rw [List.drop_zero] at hscan
  obtain ⟨hle, hrem⟩ := hscan
  have hremt : remainingR ⟨s.chunks, (seekScan off s.chunks 0 (0, 0)).1,
      (seekScan off s.chunks 0 (0, 0)).2, [], s.eof⟩ =
      (chunksData s.chunks).drop (seekScan off s.chunks 0 (0, 0)).2 := by
    show [] ++ chunksData (s.chunks.drop (seekScan off s.chunks 0 (0, 0)).1) = _
    rw [List.nil_append, hrem]
  obtain ⟨r1, r2, r3, r4⟩ := readPos_spec (off - (seekScan off s.chunks 0 (0, 0)).2)
    ⟨s.chunks, (seekScan off s.chunks 0 (0, 0)).1, (seekScan off s.chunks 0 (0, 0)).2, [],
      s.eof⟩
  refine ⟨?_, ?_, ?_⟩
  · show (readPos (off - (seekScan off s.chunks 0 (0, 0)).2) _).2.pos = off
    rw [r3, hremt]
    show (seekScan off s.chunks 0 (0, 0)).2 + _ = off
    rw [List.length_take, List.length_drop]
    omega
  · show remainingR (readPos (off - (seekScan off s.chunks 0 (0, 0)).2) _).2 = _
    rw [r2, hremt, List.drop_drop]
    rw [Nat.add_sub_cancel' hle]
  · show (readPos (off - (seekScan off s.chunks 0 (0, 0)).2) _).2.chunks = s.chunks
    rw [r4]

theorem remainingR_fresh (cs : List Chunk) :
    remainingR (freshR cs) = chunksData (sortChunks cs) := by
  simp [remainingR, freshR]

/-- C3: on a well-formed zip-backed sub-stream, after `seek(off)` with
`off` at most the total decompressed length, `tell()` returns `off`, and
a subsequent `read(n)` returns the `n` bytes of the content at offset
`off` — the same bytes a fresh handle returns after sequentially reading
(and discarding) `off` bytes and then reading `n`. -/
theorem c3_seek_read (cs : List Chunk) (off n : Nat)
    (hch : chainedB 0 cs = true) (hoff : off ≤ (chunksData cs).length) :
    (seekR off (freshR cs)).pos = off ∧
    (readPos n (seekR off (freshR cs))).1 = ((chunksData cs).drop off).take n ∧
    (readPos n (seekR off (freshR cs))).1 = (readPos n ((readPos off (freshR cs)).2)).1 := by
  have hsortid : sortChunks cs = cs := sortChunks_of_chained hch
  have hs : (freshR cs).chunks = cs := by rw [freshR, hsortid]
  have hch' : chainedB 0 (freshR cs).chunks = true := by rw [hs]; exact hch
  have hoff' : off ≤ (chunksData (freshR cs).chunks).length := by rw [hs]; exact hoff
  obtain ⟨hpos, hrem, hchunks⟩ := seekR_spec off hch' hoff'
  rw [hs] at hrem
  obtain ⟨p1, -, -, -⟩ := readPos_spec n (seekR off (freshR cs))
  have hlhs : (readPos n (seekR off (freshR cs))).1 = ((chunksData cs).drop off).take n := by
    rw [p1, hrem]
  refine ⟨hpos, hlhs, ?_⟩
  obtain ⟨-, q2, -, -⟩ := readPos_spec off (freshR cs)
  obtain ⟨w1, -, -, -⟩ := readPos_spec n ((readPos off (freshR cs)).2)
  rw [hlhs, w1, q2, remainingR_fresh, hsortid]

/-- Witness for C3: three chained chunks, `seek(3)` then `read(2)`. -/
theorem c3_seek_read_witness :
    chainedB 0 [⟨0, [1, 2], none⟩, ⟨2, [3, 4], none⟩, ⟨4, [5], none⟩] = true ∧
    3 ≤ (chunksData [⟨0, [1, 2], none⟩, ⟨2, [3, 4], none⟩, ⟨4, [5], none⟩]).length ∧
    ((seekR 3 (freshR [⟨0, [1, 2], none⟩, ⟨2, [3, 4], none⟩, ⟨4, [5], none⟩])).pos = 3 ∧
      (readPos 2 (seekR 3 (freshR [⟨0, [1, 2], none⟩, ⟨2, [3, 4], none⟩, ⟨4, [5], none⟩]))).1 =
        ((chunksData [⟨0, [1, 2], none⟩, ⟨2, [3, 4], none⟩, ⟨4, [5], none⟩]).drop 3).take 2 ∧
      (readPos 2 (seekR 3 (freshR [⟨0, [1, 2], none⟩, ⟨2, [3, 4], none⟩, ⟨4, [5], none⟩]))).1 =
        (readPos 2 ((readPos 3
          (freshR [⟨0, [1, 2], none⟩, ⟨2, [3, 4], none⟩, ⟨4, [5], none⟩])).2)).1) :=
  ⟨by decide, by decide,
    c3_seek_read [⟨0, [1, 2], none⟩, ⟨2, [3, 4], none⟩, ⟨4, [5], none⟩] 3 2
      (by decide) (by decide)⟩

/-- Witness for C5: chunk size 2, a write of 3 bytes, a bookmark and a
flush. -/
theorem c5_chunk_layout_witness :
    1 ≤ 2 ∧ 1 ≤ (opsBytes [.wr [7, 8, 9], .bk [1], .fl]).length ∧
      (chainedB 0 (closeW (applyOps [.wr [7, 8, 9], .bk [1], .fl] (freshW 2 true))).chunks = true ∧
      ((closeW (applyOps [.wr [7, 8, 9], .bk [1], .fl] (freshW 2 true))).chunks.map
        Chunk.pos).Pairwise (· < ·) ∧
      (closeW (applyOps [.wr [7, 8, 9], .bk [1], .fl] (freshW 2 true))).chunks.countP
        (fun ch => decide (ch.pos = 0)) = 1) :=
  ⟨by decide, by decide,
    c5_chunk_layout [.wr [7, 8, 9], .bk [1], .fl] 2 true (by decide) (by decide)⟩

/-! ### C2: point lookup versus sequential scan -/

theorem mem_dedupSortKeys {k : Bytes} {q : List Bytes} : k ∈ dedupSortKeys q ↔ k ∈ q := by
  unfold dedupSortKeys
  rw [(List.perm_insertionSort _ _).mem_iff, List.mem_dedup]

theorem innerLoopF_sound (Q : List Bytes) (lines : List BLine) (endloc : Option Nat) :
    ∀ (fuel : Nat) (st : ScanSt) (r : Bytes × Nat),
      r ∈ (innerLoopF fuel (some Q) lines endloc st).1 →
      r.1 ∈ Q ∧ ∃ i : Nat, ∃ l : BLine, lines[i]? = some l ∧ l.out = ParseOut.record r.1 r.2 := by
  intro fuel
  induction fuel with
  | zero => intro st r hr; simp [innerLoopF] at hr
  | succ fuel ih =>
    intro st r hr
    rw [innerLoopF] at hr
    split at hr
    · simp at hr
    · next l hget =>
      split at hr
      · simp at hr
      · split at hr
        · simp at hr
        · exact ih _ r hr
        · next k v hkey =>
          split at hr
          · next hqs => simp at hqs
          · next qset hqs =>
            injection hqs with hqs2
            subst hqs2
            split at hr
            · next hkQ =>
              have hrq : r = (k, v) := by simpa using hr
              subst hrq
              exact ⟨hkQ, st.iterIdx, l, hget, hkey⟩
            · exact ih _ r hr

theorem innerLoop_sound (Q : List Bytes) (lines : List BLine) (endloc : Option Nat)
    (st : ScanSt) (r : Bytes × Nat) (hr : r ∈ (innerLoop (some Q) lines endloc st).1) :
    r.1 ∈ Q ∧ ∃ i : Nat, ∃ l : BLine, lines[i]? = some l ∧ l.out = ParseOut.record r.1 r.2 :=
  innerLoopF_sound Q lines endloc _ st r hr

theorem xrangeLoop_sound (Q : List Bytes) (lines : List BLine) (endloc : Option Nat) :
    ∀ (n : Nat) (st : ScanSt) (r : Bytes × Nat),
      r ∈ (xrangeLoop (some Q) lines endloc n st).1 →
      r.1 ∈ Q ∧ ∃ i : Nat, ∃ l : BLine, lines[i]? = some l ∧ l.out = ParseOut.record r.1 r.2 := by
  intro n
  induction n with
  | zero => intro st r hr; simp [xrangeLoop] at hr
  | succ n ih =>
    intro st r hr
    rw [xrangeLoop] at hr
    rcases List.mem_append.mp hr with h | h
    · exact innerLoop_sound Q lines endloc st r h
    · exact ih _ r h

theorem rangesLoop_sound (Q : List Bytes) (lines : List BLine) :
    ∀ (locs : List (Nat × Option Nat × Nat)) (st : ScanSt) (r : Bytes × Nat),
      r ∈ rangesLoop (some Q) lines locs st →
      r.1 ∈ Q ∧ ∃ i : Nat, ∃ l : BLine, lines[i]? = some l ∧ l.out = ParseOut.record r.1 r.2 := by
  intro locs
  induction locs with
  | nil => intro st r hr; simp [rangesLoop] at hr
  | cons rng rest ih =>
    intro st r hr
    rw [rangesLoop] at hr
    split at hr
    · rcases List.mem_append.mp hr with h | h
      · exact xrangeLoop_sound Q lines rng.2.1 rng.2.2 _ r h
      · exact ih _ r h
    · split at hr
      · exact ih _ r hr
      · rcases List.mem_append.mp hr with h | h
        · exact xrangeLoop_sound Q lines rng.2.1 rng.2.2 _ r h
        · exact ih _ r h

theorem mem_extractRecs : ∀ (lines : List BLine),
    (∀ l ∈ lines.dropLast, l.out ≠ ParseOut.stop) →
    ∀ (i : Nat) (l : BLine) (k : Bytes) (v : Nat), lines[i]? = some l →
    l.out = ParseOut.record k v → (k, v) ∈ extractRecs lines := by
  intro lines
  induction lines with
  | nil => intro _ i l k v hget _; simp at hget
  | cons x rest ih =>
    intro hwf i l k v hget hout
    cases i with
    | zero =>
      have hx : x = l := by simpa using hget
      subst hx
      simp [extractRecs, hout]
    | succ i =>
      have hget' : rest[i]? = some l := by simpa using hget
      have hne : rest ≠ [] := by
        intro h
        rw [h] at hget'
        simp at hget'
      have hx : x.out ≠ ParseOut.stop := by
        refine hwf x ?_
        rw [List.dropLast_cons_of_ne_nil hne]
        exact List.mem_cons_self x rest.dropLast
      have hwf' : ∀ l' ∈ rest.dropLast, l'.out ≠ ParseOut.stop := by
        intro l' hl'
        refine hwf l' ?_
        rw [List.dropLast_cons_of_ne_nil hne]
        exact List.mem_cons_of_mem _ hl'
      have hmem := ih hwf' i l k v hget' hout
      cases hxk : x.out with
      | stop => exact absurd hxk hx
      | skip => simpa [extractRecs, hxk] using hmem
      | record k0 v0 =>
        simp only [extractRecs, hxk]
        exact List.mem_cons_of_mem _ hmem

theorem innerLoopF_none (lines : List BLine) : ∀ (fuel : Nat) (st : ScanSt),
    lines.length - st.iterIdx < fuel →
    (innerLoopF fuel none lines none st).1 = extractRecs (lines.drop st.iterIdx) := by
  intro fuel
  induction fuel with
  | zero => intro st h; omega
  | succ fuel ih =>
    intro st hfuel
    rw [innerLoopF]
    split
    · next hget =>
      have hle : lines.length ≤ st.iterIdx := by
        by_contra hlt
        rw [List.getElem?_eq_getElem (by omega)] at hget
        exact Option.noConfusion hget
      rw [List.drop_eq_nil_of_le hle]
      rfl
    · next l hget =>
      have hlt : st.iterIdx < lines.length := (List.getElem?_eq_some.mp hget).1
      have hl : lines[st.iterIdx] = l := (List.getElem?_eq_some.mp hget).2
      rw [if_neg (by simp [pyTruthyOptNat])]
      rw [List.drop_eq_getElem_cons hlt, hl]
      simp only [extractRecs]
      cases hkey : l.out with
      | stop => rfl
      | skip =>
        show (innerLoopF fuel none lines none
            ⟨st.iterIdx + 1, lineStart lines (st.iterIdx + 1)⟩).1 =
          extractRecs (lines.drop (st.iterIdx + 1))
        exact ih ⟨st.iterIdx + 1, lineStart lines (st.iterIdx + 1)⟩
          (by show lines.length - (st.iterIdx + 1) < fuel; omega)
      | record k v =>
        show (k, v) :: (innerLoopF fuel none lines none
            ⟨st.iterIdx + 1, lineStart lines (st.iterIdx + 1)⟩).1 =
          (k, v) :: extractRecs (lines.drop (st.iterIdx + 1))
        rw [ih ⟨st.iterIdx + 1, lineStart lines (st.iterIdx + 1)⟩
          (by show lines.length - (st.iterIdx + 1) < fuel; omega)]

theorem runSearch_none_results (file : List BChunk) :
    (runSearch none file).results = extractRecs (allLines file) := by
  show rangesLoop none (allLines file) [(0, none, 1)] ⟨0, 0⟩ = _
  rw [rangesLoop]
  rw [if_neg (by simp [qsTruthy]), if_neg (by simp [qsTruthy])]
  show (xrangeLoop none (allLines file) none 1 ⟨0, 0⟩).1
      ++ rangesLoop none (allLines file) [] _ = _
  rw [show ∀ st, rangesLoop none (allLines file) [] st = [] from fun _ => rfl, List.append_nil]
  show (innerLoop none (allLines file) none ⟨0, 0⟩).1 ++ ([] : List (Bytes × Nat)) = _
  rw [List.append_nil]
  unfold innerLoop
  rw [innerLoopF_none (allLines file) _ ⟨0, 0⟩ (by show _ - _ < _; omega)]
  rfl

/-- Records found by any planned ranges are records of the filtered
sequential scan, provided the end-of-data marker (if any) is the last
line.  Generic in the range list, so it covers both seek planners. -/
theorem lookup_sound_of_locs (q : List Bytes) (file : List BChunk)
    (locs : List (Nat × Option Nat × Nat))
    (hwf : ∀ l ∈ (allLines file).dropLast, l.out ≠ ParseOut.stop)
    (r : Bytes × Nat)
    (hr : r ∈ rangesLoop (some (dedupSortKeys q)) (allLines file) locs ⟨0, 0⟩) :
    r ∈ ((runSearch none file).results.filter fun x => decide (x.1 ∈ q)) := by
  obtain ⟨k, v⟩ := r
  have hsound := rangesLoop_sound (dedupSortKeys q) (allLines file) _ _ _ hr
  obtain ⟨hkQ, i, l, hget, hout⟩ := hsound
  rw [runSearch_none_results, List.mem_filter]
  constructor
  · exact mem_extractRecs (allLines file) hwf i l k v hget hout
  · simp only [decide_eq_true_eq]
    exact mem_dedupSortKeys.mp hkQ

/-- C2 counterexample.  Part 1 (bookmark mode): a sub-stream holding two
records for the same key followed by the end marker; the full sequential
scan filtered to that key returns both records, but the point lookup
returns only the first, because the planner's expected count for the
range is the number of queries (one) and the scan stops after one match.
Part 2 (index mode): a sub-stream built from two source files carries an
end-of-data marker in the middle (line lengths 2,1,2,1); the sequential
scan stops at the first marker so the filtered baseline is empty, yet the
secondary index maps the second key to offset 3, past the marker, and the
indexed point lookup returns that record — even the subset direction of
the claim fails. -/
theorem c2_counterexample :
    ((runSearch (some [[5]]) [⟨0, [⟨.record [5] 1, 2⟩, ⟨.record [5] 2, 2⟩, ⟨.stop, 1⟩],
      none⟩]).results = [([5], 1)] ∧
    ((runSearch none [⟨0, [⟨.record [5] 1, 2⟩, ⟨.record [5] 2, 2⟩, ⟨.stop, 1⟩], none⟩]).results.filter
      fun x => decide (x.1 ∈ ([[5]] : List Bytes))) = [([5], 1), ([5], 2)] ∧
    ([([5], 1)] : List (Bytes × Nat)) ≠ [([5], 1), ([5], 2)]) ∧
    ((runSearchIndexed (some [[2]])
      [⟨0, [⟨.record [1] 1, 2⟩, ⟨.stop, 1⟩, ⟨.record [2] 2, 2⟩, ⟨.stop, 1⟩], none⟩]
      [⟨0, [⟨[1], [0], 8⟩, ⟨[2], [3], 8⟩], none⟩]).results = [([2], 2)] ∧
    ((runSearch none
      [⟨0, [⟨.record [1] 1, 2⟩, ⟨.stop, 1⟩, ⟨.record [2] 2, 2⟩, ⟨.stop, 1⟩], none⟩]).results.filter
      fun x => decide (x.1 ∈ ([[2]] : List Bytes))) = [] ∧
    ([([2], 2)] : List (Bytes × Nat)) ≠ []) := by decide

/-- C2 (amended): in both lookup modes — the secondary-index planner when
the parser has one, container bookmarks otherwise — over a well-formed
sub-stream (the end-of-data marker, if present, is the last line), every
record returned by the point lookup `search(Q)` is one of the records the
full sequential scan returns filtered to keys in `Q`.  Exact equality
fails in bookmark mode when a key has more matching records than the
planner's expected count, and without the marker-last condition even the
inclusion fails in index mode (see the counterexample). -/
theorem c2_point_lookup_sound (q : List Bytes) (file : List BChunk) (idx : List IChunk)
    (hwf : ∀ l ∈ (allLines file).dropLast, l.out ≠ ParseOut.stop)
    (r : Bytes × Nat) :
    (r ∈ (runSearch (some q) file).results →
      r ∈ ((runSearch none file).results.filter fun x => decide (x.1 ∈ q))) ∧
    (r ∈ (runSearchIndexed (some q) file idx).results →
      r ∈ ((runSearch none file).results.filter fun x => decide (x.1 ∈ q))) := by
  constructor
  · intro hr
    simp only [runSearch] at hr
    split at hr
    · simp at hr
    · exact lookup_sound_of_locs q file _ hwf r hr
  · intro hr
    simp only [runSearchIndexed] at hr
    split at hr
    · simp at hr
    · exact lookup_sound_of_locs q file _ hwf r hr

/-- Witness for the amended C2 on a one-record sub-stream, exercising
both the bookmark-planned and the index-planned directions. -/
theorem c2_point_lookup_sound_witness :
    (∀ l ∈ (allLines [⟨0, [⟨.record [5] 1, 2⟩, ⟨.stop, 1⟩], none⟩]).dropLast,
      l.out ≠ ParseOut.stop) ∧
    ([5], 1) ∈ (runSearch (some [[5]]) [⟨0, [⟨.record [5] 1, 2⟩, ⟨.stop, 1⟩], none⟩]).results ∧
    ([5], 1) ∈ (runSearchIndexed (some [[5]]) [⟨0, [⟨.record [5] 1, 2⟩, ⟨.stop, 1⟩], none⟩]
      [⟨0, [⟨[5], [0], 8⟩], none⟩]).results ∧
    ([5], 1) ∈ ((runSearch none [⟨0, [⟨.record [5] 1, 2⟩, ⟨.stop, 1⟩], none⟩]).results.filter
      fun x => decide (x.1 ∈ ([[5]] : List Bytes))) :=
  ⟨by decide, by decide, by decide,
    (c2_point_lookup_sound [[5]] [⟨0, [⟨.record [5] 1, 2⟩, ⟨.stop, 1⟩], none⟩]
      [⟨0, [⟨[5], [0], 8⟩], none⟩] (by decide) ([5], 1)).1 (by decide)⟩

end Imdb
